import Mathlib

set_option maxRecDepth 20000

/-!
Verification development for the chunking core of the bibleproject-scrapers
repository.

The definitions below are a shallow embedding of the pure computational core:

* `split_text_into_chunks` embeds `utils/helpers.py::split_text_into_chunks`
  (page-marker scanning, paragraph/sentence splitting, size-bounded grouping
  with character overlap).
* `chunk_podcast` embeds the chunking loop of
  `processors/audio.py::AudioProcessor.chunk_podcast` (segment accumulation
  with a 2-segment overlap window); the database round trips that surround
  the loop are modelled as always succeeding, and the `while` loop is
  step-indexed by an explicit iteration budget so that non-termination of the
  source loop is observable as `none` for every budget.
* `format_timestamp` embeds `AudioProcessor.format_timestamp` for whole
  seconds (`timedelta(seconds=s).seconds` is `s % 86400` there).
* `combine_transcriptions` embeds `AudioProcessor.combine_transcriptions`
  with timestamps as rationals.

Python texts are modelled as `List Char`.  The regex operations used by the
source (`re.split(r'\n{2,}', ...)`, `re.split(r'(?<=[.!?])\s+', ...)`,
`re.finditer(r'\[PAGE_BREAK_(\d+)\]', ...)` and the corresponding `re.sub`)
are implemented as left-to-right scanning state machines equivalent to the
Python matcher on these patterns; `\s` is modelled on the ASCII whitespace
characters.
-/

/-- Python regex `\s` on the ASCII range: space, tab, newline, carriage
return, vertical tab, form feed. -/
def isPySpace (c : Char) : Bool :=
  c == ' ' || c == '\t' || c == '\n' || c == '\r' || c == '\x0b' || c == '\x0c'

/-- The sentence-ending punctuation of the lookbehind `(?<=[.!?])`. -/
def isSentPunct (c : Char) : Bool :=
  c == '.' || c == '!' || c == '?'

/-- Scanner for `re.split(r'\n{2,}', text)`: a separator is a maximal run of
two or more newlines.  `skip` means the scanner is inside such a run; `acc`
holds the current piece reversed.  Empty pieces at the ends are kept, exactly
as `re.split` keeps them. -/
def paraStep (skip : Bool) (acc : List Char) : List Char → List (List Char)
  | [] => if skip then [[]] else [acc.reverse]
  | c :: rest =>
    if skip then
      if c == '\n' then paraStep true [] rest
      else paraStep false [c] rest
    else
      if c == '\n' then
        match rest with
        | '\n' :: _ => acc.reverse :: paraStep true [] rest
        | _ => paraStep false (c :: acc) rest
      else paraStep false (c :: acc) rest

/-- `re.split(r'\n{2,}', text)`, the paragraph split of the source. -/
def paraSplit (cs : List Char) : List (List Char) :=
  paraStep false [] cs

/-- Scanner for `re.split(r'(?<=[.!?])\s+', paragraph)`: a separator is a
maximal whitespace run whose preceding character is `.`, `!` or `?`.
`prevP` records whether the previously scanned character satisfies the
lookbehind. -/
def sentStep (skip prevP : Bool) (acc : List Char) : List Char → List (List Char)
  | [] => if skip then [[]] else [acc.reverse]
  | c :: rest =>
    if skip then
      if isPySpace c then sentStep true false [] rest
      else sentStep false (isSentPunct c) [c] rest
    else
      if isPySpace c && prevP then acc.reverse :: sentStep true false [] rest
      else sentStep false (isSentPunct c) (c :: acc) rest

/-- `re.split(r'(?<=[.!?])\s+', paragraph)`, the sentence split of the
source. -/
def sentSplit (cs : List Char) : List (List Char) :=
  sentStep false false [] cs

/-- The literal `'[PAGE_BREAK_'` used by `text[i:].startswith('[PAGE_BREAK_')`
and as the opening of the page-marker regex. -/
def markerLit : List Char := "[PAGE_BREAK_".toList

/-- Value of a decimal digit string, as `int(match.group(1))` computes it. -/
def digitsToNat (ds : List Char) : ℕ :=
  ds.foldl (fun a c => 10 * a + (c.toNat - 48)) 0

/-- Attempt to match the regex `\[PAGE_BREAK_(\d+)\]` at position `i` of `t`.
Returns `(page number, length of the whole match)` on success.  The digit
group is maximal and must be followed directly by `']'`, exactly as the
backtracking matcher behaves on this pattern. -/
def matchMarkerAt (t : List Char) (i : ℕ) : Option (ℕ × ℕ) :=
  let s := t.drop i
  if markerLit.isPrefixOf s then
    let ds := (s.drop 12).takeWhile Char.isDigit
    if 0 < ds.length ∧ (s.drop (12 + ds.length)).take 1 = [']'] then
      some (digitsToNat ds, 12 + ds.length + 1)
    else none
  else none

/-- One step of the left-to-right non-overlapping scan shared by
`re.finditer(r'\[PAGE_BREAK_(\d+)\]', text)` and the `re.sub` that strips the
markers.  State: `(matches found, characters kept, first position not covered
by a previous match)`. -/
def markerScanStep (t : List Char) (st : List (ℕ × ℕ) × List Char × ℕ) (i : ℕ) :
    List (ℕ × ℕ) × List Char × ℕ :=
  if i < st.2.2 then st
  else
    match matchMarkerAt t i with
    | some (pg, len) => (st.1 ++ [(i, pg)], st.2.1, i + len)
    | none => (st.1, st.2.1 ++ [t.getD i ' '], st.2.2)

/-- The combined marker scan over all positions of `t`. -/
def markerScan (t : List Char) : List (ℕ × ℕ) × List Char × ℕ :=
  (List.range t.length).foldl (markerScanStep t) ([], [], 0)

/-- `page_breaks`: the `(position, page number)` pairs produced by
`re.finditer(r'\[PAGE_BREAK_(\d+)\]', text)`.  They come out in ascending
position order, so the source's subsequent stable sort by position is the
identity. -/
def findMarkers (t : List Char) : List (ℕ × ℕ) :=
  (markerScan t).1

/-- `clean_text = re.sub(r'\[PAGE_BREAK_\d+\]', '', text)`. -/
def cleanText (t : List Char) : List Char :=
  (markerScan t).2.1

/-- The original positions recorded in `offset_map`: every index `i` of the
original text with `not text[i:].startswith('[PAGE_BREAK_')`.  The entry of
clean position `k` in the source's `page_map` is built from the `k`-th
element of this list. -/
def origPositions (t : List Char) : List ℕ :=
  (List.range t.length).filter (fun i => !(markerLit.isPrefixOf (t.drop i)))

/-- The page active at original position `o`: the source iterates the sorted
break list and keeps the page of the last break whose position is `≤ o`,
starting from the default page 1. -/
def pageAt (brs : List (ℕ × ℕ)) (o : ℕ) : ℕ :=
  brs.foldl (fun cur pr => if pr.1 ≤ o then pr.2 else cur) 1

/-- `page_map.get(k, d)`.  The dictionary maps clean position `k` to the page
of the `k`-th recorded original position; Python dictionary keys here may be
probed with negative or out-of-range numbers, which fall back to the given
default `d`. -/
def pageGet (t : List Char) (k : ℤ) (d : ℕ) : ℕ :=
  if 0 ≤ k then
    match (origPositions t).get? k.toNat with
    | some o => pageAt (findMarkers t) o
    | none => d
  else d

/-- `' '.join(pieces)`. -/
def joinSp : List (List Char) → List Char
  | [] => []
  | [x] => x
  | x :: y :: ys => x ++ ' ' :: joinSp (y :: ys)

/-- `'\n\n'.join(pieces)`. -/
def joinPP : List (List Char) → List Char
  | [] => []
  | [x] => x
  | x :: y :: ys => x ++ '\n' :: '\n' :: joinPP (y :: ys)

/-- `sum(len(s) + 1 for s in pieces)`, the sentence-size accounting. -/
def sumSp (l : List (List Char)) : ℕ :=
  (l.map (fun s => s.length + 1)).sum

/-- `sum(len(p) + 2 for p in pieces)`, the paragraph-size accounting. -/
def sumPP (l : List (List Char)) : ℕ :=
  (l.map (fun p => p.length + 2)).sum

/-- A chunk record `{'text': ..., 'page': ...}` emitted by
`split_text_into_chunks`. -/
structure TextChunk where
  text : List Char
  page : ℕ
deriving DecidableEq, Repr

/-- Values storable in the emitted Python dictionaries. -/
inductive PyVal where
  | s : List Char → PyVal
  | i : ℤ → PyVal
deriving DecidableEq, Repr

/-- The literal dictionary `{'text': chunk_text, 'page': chunk_page}` that
every emission site of `split_text_into_chunks` appends, as an ordered
key/value list. -/
def TextChunk.toDict (c : TextChunk) : List (String × PyVal) :=
  [("text", PyVal.s c.text), ("page", PyVal.i (c.page : ℤ))]

/-- State of the paragraph loop of `split_text_into_chunks`: emitted chunks,
`current_chunk`, `current_size` and `current_position`.  Positions are
integers because `current_position - current_size` can go negative after the
overlap carry (Python then probes the page dictionary with a negative key and
falls back to the default). -/
structure SState where
  chunks : List TextChunk
  cur : List (List Char)
  curSize : ℕ
  curPos : ℤ
deriving DecidableEq, Repr

/-- State of the inner sentence loop: emitted chunks, `sent_chunk`,
`sent_size`, `sent_position`. -/
structure SentState where
  chunks : List TextChunk
  sch : List (List Char)
  ssz : ℕ
  spos : ℤ
deriving DecidableEq, Repr

/-- The backward overlap-collection loop of the paragraph overflow branch:
walk `current_chunk` from its end and keep inserting paragraphs at the front
while `overlap_size + len(p) <= overlap`, stopping at the first failure.
The argument is the reversed `current_chunk`; the result is in original
order. -/
def takeOvl (ov : ℕ) : List (List Char) → ℕ → List (List Char)
  | [], _ => []
  | p :: rest, sz =>
    if sz + p.length ≤ ov then takeOvl ov rest (sz + p.length + 2) ++ [p]
    else []

/-- One iteration of the sentence loop body of `split_text_into_chunks`
(lines 177-200 of `utils/helpers.py`).  `pm` is `page_map.get`, `pPage` the
enclosing `paragraph_page`. -/
def stepSent (pm : ℤ → ℕ → ℕ) (maxs ov : ℕ) (pPage : ℕ) (st : SentState)
    (s : List Char) : SentState :=
  if st.ssz + s.length ≤ maxs ∨ st.sch = [] then
    { st with sch := st.sch ++ [s], ssz := st.ssz + s.length + 1 }
  else
    let page := pm st.spos pPage
    let opoint := st.sch.length - ov / 10
    let kept := st.sch.drop opoint
    let ochars := sumSp (kept.take opoint)
    { chunks := st.chunks ++ [⟨joinSp st.sch, page⟩],
      sch := kept ++ [s],
      ssz := sumSp kept + s.length + 1,
      spos := st.spos + (ochars : ℤ) }

/-- One iteration of the paragraph loop body of `split_text_into_chunks`
(lines 151-245 of `utils/helpers.py`). -/
def stepPara (pm : ℤ → ℕ → ℕ) (maxs ov : ℕ) (st : SState) (p : List Char) :
    SState :=
  let psize := p.length
  let pPage := pm st.curPos 1
  if maxs < psize then
    let st1 : SState :=
      if st.cur ≠ [] then
        { chunks := st.chunks ++
            [⟨joinPP st.cur, pm (st.curPos - (st.curSize : ℤ)) 1⟩],
          cur := [], curSize := 0, curPos := st.curPos }
      else st
    let fin := (sentSplit p).foldl (stepSent pm maxs ov pPage)
      ⟨st1.chunks, [], 0, st1.curPos⟩
    let chunks2 :=
      if fin.sch ≠ [] then fin.chunks ++ [⟨joinSp fin.sch, pPage⟩]
      else fin.chunks
    { chunks := chunks2, cur := st1.cur, curSize := st1.curSize,
      curPos := st1.curPos + (psize : ℤ) + 2 }
  else if st.curSize + psize ≤ maxs then
    { chunks := st.chunks, cur := st.cur ++ [p],
      curSize := st.curSize + psize + 2,
      curPos := st.curPos + (psize : ℤ) + 2 }
  else
    let ovc := takeOvl ov st.cur.reverse 0
    let newCur := ovc ++ [p]
    { chunks := st.chunks ++
        [⟨joinPP st.cur, pm (st.curPos - (st.curSize : ℤ)) 1⟩],
      cur := newCur, curSize := sumPP newCur,
      curPos := st.curPos - (sumPP ovc : ℤ) + (psize : ℤ) + 2 }

/-- `utils/helpers.py::split_text_into_chunks`: page-marker handling, the
paragraph loop, and the final flush of a non-empty `current_chunk`. -/
def split_text_into_chunks (text : List Char) (max_size overlap : ℕ) :
    List TextChunk :=
  let pm := pageGet text
  let fin := (paraSplit (cleanText text)).foldl (stepPara pm max_size overlap)
    ⟨[], [], 0, 0⟩
  if fin.cur ≠ [] then
    fin.chunks ++ [⟨joinPP fin.cur, pm (fin.curPos - (fin.curSize : ℤ)) 1⟩]
  else fin.chunks

/-- A Whisper transcript segment: text with start and end timestamps in
seconds (the `end` field is called `stop` here because `end` is reserved).
Timestamps are modelled as rationals. -/
structure TranscriptSegment where
  text : List Char
  start : ℚ
  stop : ℚ
deriving DecidableEq, Repr

instance : Inhabited TranscriptSegment := ⟨⟨[], 0, 0⟩⟩

/-- An `AudioChunk` record as assembled by `chunk_podcast`.  The formatted
`start_time`/`end_time` strings and the podcast metadata copied verbatim into
every record are derived data and are not repeated here. -/
structure AudioChunk where
  chunk_index : ℕ
  start_seconds : ℚ
  end_seconds : ℚ
  segment_start_index : ℕ
  segment_end_index : ℕ
  text : List Char
deriving DecidableEq, Repr

/-- The inner `for i in range(current_pos, len(segments))` scan of
`chunk_podcast`, started after the first segment of the window has been
accepted: returns `some i` when adding segment `i` would overflow the chunk
size with a non-empty chunk (the `break` branch), and `none` when the scan
reaches and includes the last segment (the final-chunk branch).  `rem` is
`segments[i:]`. -/
def scanGo (cs : ℕ) (curLen : ℕ) (i : ℕ) : List TranscriptSegment → Option ℕ
  | [] => none
  | [seg] => if cs < curLen + seg.text.length then some i else none
  | seg :: b :: bs =>
    if cs < curLen + seg.text.length then some i
    else scanGo cs (curLen + seg.text.length) (i + 1) (b :: bs)

/-- The `while current_pos < len(segments)` loop of `chunk_podcast`, with
`overlap_size = 2` as in the source (`i - 2` on naturals is
`max(0, i - overlap_size)`).  The first argument of the recursion is the
iteration budget: `none` means the budget was exhausted before the loop
finished, so a loop that never finishes yields `none` for every budget. -/
def chunkLoop (segs : List TranscriptSegment) (cs : ℕ) :
    ℕ → ℕ → ℕ → Option (List AudioChunk)
  | 0, _, _ => none
  | fuel + 1, pos, ci =>
    match segs.drop pos with
    | [] => some []
    | seg0 :: rest =>
      match (if rest.isEmpty then none
             else scanGo cs seg0.text.length (pos + 1) rest) with
      | some i =>
        let c : AudioChunk :=
          { chunk_index := ci,
            start_seconds := seg0.start,
            end_seconds := (segs.getD i default).start,
            segment_start_index := pos,
            segment_end_index := i - 1,
            text := joinSp (((segs.drop pos).take (i - pos)).map (fun s => s.text)) }
        (chunkLoop segs cs fuel (i - 2) (ci + 1)).map (fun l => c :: l)
      | none =>
        let c : AudioChunk :=
          { chunk_index := ci,
            start_seconds := seg0.start,
            end_seconds := (segs.getD (segs.length - 1) default).stop,
            segment_start_index := pos,
            segment_end_index := segs.length - 1,
            text := joinSp ((segs.drop pos).map (fun s => s.text)) }
        (chunkLoop segs cs fuel segs.length (ci + 1)).map (fun l => c :: l)

/-- Outcome of a `chunk_podcast` call: `failure` models `return False`,
`success` the `return True` path together with the chunks stored along the
way. -/
inductive ChunkOutcome where
  | failure : ChunkOutcome
  | success : List AudioChunk → ChunkOutcome
deriving DecidableEq, Repr

/-- `processors/audio.py::AudioProcessor.chunk_podcast`, pure core: an empty
segment list is rejected with `return False` before the loop; otherwise the
chunking loop runs with `self.chunk_size = 1000`.  Database writes are
modelled as succeeding.  `none` means the given iteration budget did not
suffice. -/
def chunk_podcast (segs : List TranscriptSegment) (fuel : ℕ) :
    Option ChunkOutcome :=
  if segs.isEmpty then some ChunkOutcome.failure
  else (chunkLoop segs 1000 fuel 0 0).map ChunkOutcome.success

/-- Divergence of `chunk_podcast` on a given segment list: no iteration
budget makes the loop finish. -/
def chunkPodcastDiverges (segs : List TranscriptSegment) : Prop :=
  ∀ fuel : ℕ, chunk_podcast segs fuel = none

/-- Decimal digit character. -/
def digitChar (n : ℕ) : Char := Char.ofNat (48 + n)

/-- Decimal digits of `n`, most significant first; the first argument is a
structural recursion budget (any budget of at least the digit count of `n`
gives the digits, and `natDigits` below passes `n` itself). -/
def natDigitsAux : ℕ → ℕ → List Char
  | 0, n => [digitChar (n % 10)]
  | fuel + 1, n =>
    if n < 10 then [digitChar n]
    else natDigitsAux fuel (n / 10) ++ [digitChar (n % 10)]

/-- `str(n)` for a natural number. -/
def natDigits (n : ℕ) : List Char := natDigitsAux n n

/-- The f-string padding `f"{n:02d}"`. -/
def pad2 (n : ℕ) : List Char :=
  if n < 10 then '0' :: natDigits n else natDigits n

/-- `AudioProcessor.format_timestamp` for whole seconds:
`timedelta(seconds=s).seconds` is `s % 86400`, from which hours, minutes and
seconds are derived; the hour part is printed only when it is nonzero. -/
def format_timestamp (s : ℕ) : List Char :=
  let tdSeconds := s % 86400
  let hours := tdSeconds / 3600
  let minutes := tdSeconds % 3600 / 60
  let seconds := tdSeconds % 60
  if 0 < hours then pad2 hours ++ ':' :: (pad2 minutes ++ ':' :: pad2 seconds)
  else pad2 minutes ++ ':' :: pad2 seconds

/-- Result of `combine_transcriptions`: full text and the merged segment
list. -/
structure CombinedTranscription where
  text : List Char
  segments : List TranscriptSegment
deriving DecidableEq, Repr

/-- Comparison key of `all_segments.sort(key=lambda x: x.start)`. -/
def segStartLE (a b : TranscriptSegment) : Prop := a.start ≤ b.start

instance : DecidableRel segStartLE :=
  fun a b => inferInstanceAs (Decidable (a.start ≤ b.start))

instance : IsTotal TranscriptSegment segStartLE :=
  ⟨fun a b => le_total a.start b.start⟩

instance : IsTrans TranscriptSegment segStartLE :=
  ⟨fun _ _ _ h h' => le_trans h h'⟩

/-- The timestamp adjustment `segment.start += i * 600`,
`segment.end += i * 600` applied to a segment of piece `i`. -/
def offsetSeg (i : ℕ) (s : TranscriptSegment) : TranscriptSegment :=
  { s with start := s.start + (i : ℚ) * 600, stop := s.stop + (i : ℚ) * 600 }

/-- All segments of all pieces with the per-piece offset applied, in input
order. -/
def adjustedSegments (pieces : List (List TranscriptSegment)) :
    List TranscriptSegment :=
  (pieces.enum.map (fun pr => pr.2.map (offsetSeg pr.1))).flatten

/-- `AudioProcessor.combine_transcriptions`: `None` on an empty input list;
otherwise offset every piece's segments by `i * 600` seconds, sort the merged
list by start time (Python's stable sort is modelled by insertion sort), and
join the sorted texts with spaces. -/
def combine_transcriptions (pieces : List (List TranscriptSegment)) :
    Option CombinedTranscription :=
  if pieces.isEmpty then none
  else
    let sorted := List.insertionSort segStartLE (adjustedSegments pieces)
    some ⟨joinSp (sorted.map (fun s => s.text)), sorted⟩


/-- Pair relation of consecutive `AudioChunk`s: the later chunk starts at or
before the earlier chunk's last segment, and when the earlier chunk contains
at least two segments the overlap is exactly two segments
(`end_i = start_{i+1} + 1`, i.e. `end_i - start_{i+1} + 1 = 2`). -/
def audioPairOk (a b : AudioChunk) : Prop :=
  b.segment_start_index ≤ a.segment_end_index ∧
  (a.segment_start_index + 1 ≤ a.segment_end_index →
    a.segment_end_index = b.segment_start_index + 1)

/-- Input condition for termination of the podcast chunking loop: any three
consecutive segments (two at the very end) together stay within the size
target, so every overflow happens with more than `overlap_size = 2` segments
already accumulated and the cursor strictly advances. -/
def triWindowBound (segs : List TranscriptSegment) (cs : ℕ) : Prop :=
  ∀ i < segs.length,
    i + 1 < segs.length →
      (segs.getD i default).text.length + (segs.getD (i + 1) default).text.length +
        (if i + 2 < segs.length then (segs.getD (i + 2) default).text.length else 0) ≤ cs

/-- The text `x` is one of the atomic sentence units of the input `t`: a
piece of the sentence split of one of the paragraphs of the marker-stripped
text. -/
def isSentenceOf (t : List Char) (x : List Char) : Prop :=
  ∃ p ∈ paraSplit (cleanText t), x ∈ sentSplit p

/-- Segment list of a successful `combine_transcriptions` call (empty list
when the call returns `None`). -/
def combSegs (pieces : List (List TranscriptSegment)) : List TranscriptSegment :=
  match combine_transcriptions pieces with
  | some c => c.segments
  | none => []

/-- Concrete input for the divergence of the podcast chunker: two segments
whose texts have 600 characters each, so the very first window overflows at
the second segment and the cursor update `max(0, 1 - 2) = 0` never
advances. -/
def twoLongSegs : List TranscriptSegment :=
  [⟨List.replicate 600 'a', 0, 1⟩, ⟨List.replicate 600 'b', 1, 2⟩]

/-- Concrete five-segment input with 300-character texts, satisfying the
three-consecutive-segments bound for the 1000-character target. -/
def fiveSegs : List TranscriptSegment :=
  [⟨List.replicate 300 'a', 0, 1⟩, ⟨List.replicate 300 'b', 1, 2⟩,
   ⟨List.replicate 300 'c', 2, 3⟩, ⟨List.replicate 300 'd', 3, 4⟩,
   ⟨List.replicate 300 'e', 4, 5⟩]


/-- Chunk list of a successful `chunk_podcast` call (empty on failure or an
exhausted budget). -/
def podChunks (segs : List TranscriptSegment) (fuel : ℕ) : List AudioChunk :=
  match chunk_podcast segs fuel with
  | some (ChunkOutcome.success l) => l
  | _ => []

/-- First chunk of a successful `chunk_podcast` call. -/
def firstPodChunk (segs : List TranscriptSegment) (fuel : ℕ) : AudioChunk :=
  (podChunks segs fuel).getD 0 ⟨0, 0, 0, 0, 0, []⟩

/-- Concrete two-segment input with short texts; the loop closes a single
final chunk over both segments. -/
def twoSmallSegs : List TranscriptSegment :=
  [⟨['a', 'b'], 0, 1⟩, ⟨['c', 'd'], 1, 2⟩]

/-- Invariant of the inner sentence loop used for the chunk size analysis:
all emitted chunks are within the bound or are single atomic sentence units;
`sent_size` is the `len + 1` accounting of `sent_chunk`; a `sent_chunk` of at
least two sentences is still within `max_size + 1` (its last addition passed
the size check); and `sent_chunk` holds sentence units of the paragraph
`p`. -/
def SentInv (t : List Char) (maxs : ℕ) (p : List Char) (st : SentState) : Prop :=
  (∀ c ∈ st.chunks, c.text.length ≤ maxs ∨ isSentenceOf t c.text) ∧
  (st.sch = [] → st.ssz = 0) ∧
  (st.sch ≠ [] → st.ssz = sumSp st.sch) ∧
  (2 ≤ st.sch.length → st.ssz ≤ maxs + 1) ∧
  (∀ s ∈ st.sch, s ∈ sentSplit p)

/-- Invariant of the paragraph loop used for the chunk size analysis:
all emitted chunks are within the bound or are single atomic sentence units;
`current_size` is the `len + 2` accounting of `current_chunk` and stays
within `max_size + 2`; and `current_chunk` holds no empty paragraph. -/
def ParaInv (t : List Char) (maxs : ℕ) (st : SState) : Prop :=
  (∀ c ∈ st.chunks, c.text.length ≤ maxs ∨ isSentenceOf t c.text) ∧
  (st.cur = [] → st.curSize = 0) ∧
  (st.cur ≠ [] → st.curSize = sumPP st.cur) ∧
  st.curSize ≤ maxs + 2 ∧
  (∀ q ∈ st.cur, q ≠ [])

/-! Claim C3: behaviour of both chunkers on empty input. -/

/-- C3 counterexample: the claim says empty input yields zero chunks and no
error, but `split_text_into_chunks ''` returns one chunk with empty text, and
`chunk_podcast` on an empty segment list returns `False` (a failure), not a
successful empty chunk sequence. -/
theorem C3_counterexample :
    split_text_into_chunks [] 4000 200 = [⟨[], 1⟩] ∧
    chunk_podcast [] 200 = some ChunkOutcome.failure := by
  exact ⟨rfl, rfl⟩

/-- C3 amended: for every `max_size`, `overlap` and iteration budget, the
text chunker maps the empty string to exactly one chunk with empty text and
page 1, and the segment chunker rejects the empty segment list with a
failure, emitting no chunks. -/
theorem C3_amended (max_size overlap fuel : ℕ) :
    split_text_into_chunks [] max_size overlap = [⟨[], 1⟩] ∧
    chunk_podcast [] fuel = some ChunkOutcome.failure := by
  constructor
  · simp [split_text_into_chunks, cleanText, markerScan, paraSplit, paraStep,
      stepPara, joinPP, pageGet, origPositions, pageAt, findMarkers]
  · simp [chunk_podcast]

/-! Claim C5: shape of the emitted text-chunk records. -/

/-- C5 counterexample: the claim says every emitted record carries `index`
and `total` fields, but the records of `split_text_into_chunks` carry
exactly the keys `text` and `page`. -/
theorem C5_counterexample :
    (split_text_into_chunks ['h', 'i'] 4000 200).map
        (fun c => c.toDict.map Prod.fst) = [["text", "page"]] ∧
    "index" ∉ (["text", "page"] : List String) ∧
    "total" ∉ (["text", "page"] : List String) := by
  refine ⟨rfl, by decide, by decide⟩

/-- C5 amended: every chunk record emitted by `split_text_into_chunks`
carries exactly the keys `text` and `page`, in this order; no `index` or
`total` field is attached (the emission order is only implicit in the
position within the returned list). -/
theorem C5_amended (text : List Char) (max_size overlap : ℕ) :
    ∀ c ∈ split_text_into_chunks text max_size overlap,
      c.toDict.map Prod.fst = ["text", "page"] := by
  intro c _
  rfl

/-- C5 witness: the amended statement applied to a concrete two-character
document. -/
theorem C5_witness :
    (⟨['h', 'i'], 1⟩ : TextChunk) ∈ split_text_into_chunks ['h', 'i'] 4000 200 ∧
    (TextChunk.toDict ⟨['h', 'i'], 1⟩).map Prod.fst = ["text", "page"] :=
  ⟨by decide, C5_amended ['h', 'i'] 4000 200 ⟨['h', 'i'], 1⟩ (by decide)⟩

/-! Claim C8: timestamp rendering. -/

theorem digitChar_ne_colon : ∀ n < 10, digitChar n ≠ ':' := by decide

theorem natDigitsAux_no_colon (fuel : ℕ) : ∀ n, ':' ∉ natDigitsAux fuel n := by
  induction fuel with
  | zero =>
    intro n
    simp only [natDigitsAux, List.mem_singleton]
    intro h
    exact digitChar_ne_colon (n % 10) (Nat.mod_lt n (by norm_num)) h.symm
  | succ f ih =>
    intro n
    by_cases h : n < 10
    · simp only [natDigitsAux, if_pos h, List.mem_singleton]
      intro he
      exact digitChar_ne_colon n h he.symm
    · simp only [natDigitsAux, if_neg h, List.mem_append, List.mem_singleton]
      rintro (hc | hc)
      · exact ih _ hc
      · exact digitChar_ne_colon (n % 10) (Nat.mod_lt n (by norm_num)) hc.symm

theorem pad2_no_colon (n : ℕ) : ':' ∉ pad2 n := by
  unfold pad2 natDigits
  split
  · simp only [List.mem_cons]
    rintro (h | h)
    · exact absurd h (by decide)
    · exact natDigitsAux_no_colon _ _ h
  · exact natDigitsAux_no_colon _ _

theorem natDigitsAux_length_one (fuel n : ℕ) (h : n < 10) :
    (natDigitsAux fuel n).length = 1 := by
  cases fuel <;> simp [natDigitsAux, h]

theorem pad2_length (n : ℕ) (h : n < 100) : (pad2 n).length = 2 := by
  unfold pad2 natDigits
  by_cases h10 : n < 10
  · simp [if_pos h10, natDigitsAux_length_one n n h10]
  · rw [if_neg h10]
    obtain ⟨f, rfl⟩ : ∃ f, n = f + 1 := ⟨n - 1, by omega⟩
    have hdiv : (f + 1) / 10 < 10 := by
      rw [Nat.div_lt_iff_lt_mul (by norm_num)]
      omega
    simp [natDigitsAux, h10, natDigitsAux_length_one f ((f + 1) / 10) hdiv]

/-- C8 counterexample: the claim says the rendering is `hh:mm:ss` whenever
`floor(s / 3600)` is nonzero; at `s = 86400` the hour component in that sense
is 24, yet `format_timestamp` renders the single-colon `"00:00"` because the
source reads `timedelta.seconds`, which wraps at one day. -/
theorem C8_counterexample :
    format_timestamp 86400 = "00:00".toList ∧
    (86400 : ℕ) / 3600 ≠ 0 ∧
    ("00:00".toList).count ':' = 1 := by
  exact ⟨rfl, by norm_num, by decide⟩

/-- C8 amended: for whole seconds `s`, the rendering is the five-character
single-colon `mm:ss` form exactly when the hour component of the time of day
`floor((s mod 86400) / 3600)` is zero, and the eight-character two-colon
`hh:mm:ss` form otherwise; the wrapped hour component replaces the claim's
`floor(s / 3600)`. -/
theorem C8_amended (s : ℕ) :
    (format_timestamp s).count ':' = (if s % 86400 / 3600 = 0 then 1 else 2) ∧
    (format_timestamp s).length = (if s % 86400 / 3600 = 0 then 5 else 8) := by
  have h86 : s % 86400 < 86400 := Nat.mod_lt _ (by norm_num)
  have hh : s % 86400 / 3600 < 100 := by
    rw [Nat.div_lt_iff_lt_mul (by norm_num)]
    omega
  have hm : s % 86400 % 3600 / 60 < 100 := by
    have : s % 86400 % 3600 < 3600 := Nat.mod_lt _ (by norm_num)
    rw [Nat.div_lt_iff_lt_mul (by norm_num)]
    omega
  have hs : s % 86400 % 60 < 100 := by
    have : s % 86400 % 60 < 60 := Nat.mod_lt _ (by norm_num)
    omega
  have cm := List.count_eq_zero.mpr (pad2_no_colon (s % 86400 % 3600 / 60))
  have cs' := List.count_eq_zero.mpr (pad2_no_colon (s % 86400 % 60))
  have ch := List.count_eq_zero.mpr (pad2_no_colon (s % 86400 / 3600))
  unfold format_timestamp
  by_cases h0 : s % 86400 / 3600 = 0
  · rw [if_pos h0]
    simp [h0, List.count_append, List.count_cons, cm, cs',
      pad2_length _ hm, pad2_length _ hs]
  · rw [if_neg h0]
    have hpos : 0 < s % 86400 / 3600 := Nat.pos_of_ne_zero h0
    simp [hpos, h0, List.count_append, List.count_cons, cm, cs', ch,
      pad2_length _ hh, pad2_length _ hm, pad2_length _ hs]

/-! Claim C1: termination of the podcast chunking loop. -/

/-- C1 counterexample: on two segments of 600 characters each the first
window overflows at index 1, the cursor update `max(0, 1 - 2)` leaves the
cursor at 0, and the loop re-enters the identical state forever: no
iteration budget makes `chunk_podcast` finish. -/
theorem C1_counterexample : chunkPodcastDiverges twoLongSegs := by
  have step : ∀ (f ci : ℕ), chunkLoop twoLongSegs 1000 (f + 1) 0 ci =
      (chunkLoop twoLongSegs 1000 f 0 (ci + 1)).map
        (fun l => (⟨ci, 0, 1, 0, 0, List.replicate 600 'a'⟩ : AudioChunk) :: l) :=
    fun f ci => rfl
  have key : ∀ fuel ci, chunkLoop twoLongSegs 1000 fuel 0 ci = none := by
    intro fuel
    induction fuel with
    | zero => intro ci; rfl
    | succ f ih =>
      intro ci
      rw [step f ci, ih (ci + 1)]
      rfl
  intro fuel
  have hne : twoLongSegs.isEmpty = false := rfl
  simp [chunk_podcast, hne, key fuel 0]

theorem drop_cons_getD {α : Type} (d : α) :
    ∀ (n : ℕ) (l : List α) (x : α) (t : List α), l.drop n = x :: t → l.getD n d = x := by
  intro n
  induction n with
  | zero =>
    intro l x t h
    cases l <;> simp_all
  | succ k ih =>
    intro l x t h
    cases l with
    | nil => simp at h
    | cons a as =>
      simp only [List.drop_succ_cons] at h
      simpa using ih as x t h

theorem drop_cons_lt {α : Type} {n : ℕ} {l : List α} {x : α} {t : List α}
    (h : l.drop n = x :: t) : n < l.length := by
  by_contra hc
  rw [List.drop_eq_nil_of_le (by omega)] at h
  exact absurd h (by simp)

theorem drop_cons_tail {α : Type} {n : ℕ} {l : List α} {x : α} {t : List α}
    (h : l.drop n = x :: t) : l.drop (n + 1) = t := by
  have ht := List.tail_drop l n
  rw [h] at ht
  exact ht.symm

theorem scanGo_bounds (cs : ℕ) :
    ∀ (rem : List TranscriptSegment) (curLen j i : ℕ),
      scanGo cs curLen j rem = some i → j ≤ i ∧ i < j + rem.length := by
  intro rem
  induction rem with
  | nil =>
    intro curLen j i h
    simp [scanGo] at h
  | cons seg rest ih =>
    intro curLen j i h
    cases rest with
    | nil =>
      by_cases hov : cs < curLen + seg.text.length
      · rw [scanGo, if_pos hov] at h
        obtain rfl : j = i := by injection h
        simp
      · rw [scanGo, if_neg hov] at h
        exact absurd h (by simp)
    | cons b bs =>
      by_cases hov : cs < curLen + seg.text.length
      · rw [scanGo, if_pos hov] at h
        obtain rfl : j = i := by injection h
        simp
      · rw [scanGo, if_neg hov] at h
        have hb := ih (curLen + seg.text.length) (j + 1) i h
        refine ⟨by omega, ?_⟩
        simp only [List.length_cons] at hb ⊢
        omega

theorem scanGo_progress (segs : List TranscriptSegment) (cs : ℕ)
    (H : triWindowBound segs cs) (pos : ℕ) (hpos : pos < segs.length) (i : ℕ)
    (h : scanGo cs (segs.getD pos default).text.length (pos + 1)
        (segs.drop (pos + 1)) = some i) :
    pos + 3 ≤ i ∧ i < segs.length := by
  have hb := scanGo_bounds cs _ _ _ _ h
  have hlen1 : (segs.drop (pos + 1)).length = segs.length - (pos + 1) :=
    List.length_drop _ _
  have hi_lt : i < segs.length := by omega
  refine ⟨?_, hi_lt⟩
  by_cases h1 : pos + 1 < segs.length
  · obtain ⟨x1, t1, hd1⟩ : ∃ x t, segs.drop (pos + 1) = x :: t := by
      cases hdd : segs.drop (pos + 1) with
      | nil => rw [hdd] at hlen1; simp at hlen1; omega
      | cons a b => exact ⟨a, b, rfl⟩
    have hx1 : x1 = segs.getD (pos + 1) default := by
      have := drop_cons_getD default (pos + 1) segs x1 t1 hd1
      exact this.symm
    have Hw := H pos hpos h1
    rw [hd1] at h
    cases ht1 : t1 with
    | nil =>
      subst ht1
      have cond1 : ¬ cs < (segs.getD pos default).text.length + x1.text.length := by
        rw [hx1]
        by_cases h2 : pos + 2 < segs.length
        · rw [if_pos h2] at Hw; omega
        · rw [if_neg h2] at Hw; omega
      rw [scanGo, if_neg cond1] at h
      exact absurd h (by simp)
    | cons x2 t2 =>
      subst ht1
      have cond1 : ¬ cs < (segs.getD pos default).text.length + x1.text.length := by
        rw [hx1]
        by_cases h2 : pos + 2 < segs.length
        · rw [if_pos h2] at Hw; omega
        · rw [if_neg h2] at Hw; omega
      rw [scanGo, if_neg cond1] at h
      -- the second element is segment pos + 2
      have hd2 : segs.drop (pos + 2) = x2 :: t2 := drop_cons_tail hd1
      have h2 : pos + 2 < segs.length := drop_cons_lt hd2
      have hx2 : x2 = segs.getD (pos + 2) default := by
        have := drop_cons_getD default (pos + 2) segs x2 t2 hd2
        exact this.symm
      rw [if_pos h2] at Hw
      have cond2 : ¬ cs < (segs.getD pos default).text.length + x1.text.length +
          x2.text.length := by
        rw [hx1, hx2]; omega
      cases ht2 : t2 with
      | nil =>
        subst ht2
        rw [scanGo, if_neg (by omega : ¬ cs <
          (segs.getD pos default).text.length + x1.text.length + x2.text.length)] at h
        exact absurd h (by simp)
      | cons x3 t3 =>
        subst ht2
        rw [scanGo, if_neg (by omega : ¬ cs <
          (segs.getD pos default).text.length + x1.text.length + x2.text.length)] at h
        have := scanGo_bounds cs _ _ _ _ h
        omega
  · rw [List.drop_eq_nil_of_le (by omega)] at h
    exact absurd h (by simp [scanGo])

theorem chunkLoop_terminates (segs : List TranscriptSegment) (cs : ℕ)
    (H : triWindowBound segs cs) :
    ∀ fuel pos ci, segs.length - pos < fuel →
      (chunkLoop segs cs fuel pos ci).isSome = true := by
  intro fuel
  induction fuel with
  | zero => intro pos ci h; omega
  | succ f ih =>
    intro pos ci h
    cases hd : segs.drop pos with
    | nil => simp [chunkLoop, hd]
    | cons seg0 rest =>
      have hpos : pos < segs.length := drop_cons_lt hd
      have hrest : rest = segs.drop (pos + 1) := (drop_cons_tail hd).symm
      have hseg0 : seg0 = segs.getD pos default :=
        (drop_cons_getD default pos segs seg0 rest hd).symm
      cases hscan : (if rest.isEmpty then none
          else scanGo cs seg0.text.length (pos + 1) rest) with
      | none =>
        have hfin : chunkLoop segs cs (f + 1) pos ci =
            (chunkLoop segs cs f segs.length (ci + 1)).map
              (fun l =>
                ({ chunk_index := ci,
                   start_seconds := seg0.start,
                   end_seconds := (segs.getD (segs.length - 1) default).stop,
                   segment_start_index := pos,
                   segment_end_index := segs.length - 1,
                   text := joinSp ((segs.drop pos).map (fun s => s.text)) } :
                  AudioChunk) :: l) := by
          rw [chunkLoop, hd]
          simp only [hscan]
        rw [hfin]
        have hrec := ih segs.length (ci + 1) (by omega)
        cases hv : chunkLoop segs cs f segs.length (ci + 1) with
        | none => rw [hv] at hrec; simp at hrec
        | some l => simp [hv]
      | some i =>
        have hscan' : scanGo cs (segs.getD pos default).text.length (pos + 1)
            (segs.drop (pos + 1)) = some i := by
          by_cases he : rest.isEmpty
          · rw [if_pos he] at hscan; exact absurd hscan (by simp)
          · rw [if_neg he] at hscan
            rw [← hrest, ← hseg0]; exact hscan
        have hprog := scanGo_progress segs cs H pos hpos i hscan'
        have hfin : chunkLoop segs cs (f + 1) pos ci =
            (chunkLoop segs cs f (i - 2) (ci + 1)).map
              (fun l =>
                ({ chunk_index := ci,
                   start_seconds := seg0.start,
                   end_seconds := (segs.getD i default).start,
                   segment_start_index := pos,
                   segment_end_index := i - 1,
                   text := joinSp (((segs.drop pos).take (i - pos)).map
                     (fun s => s.text)) } : AudioChunk) :: l) := by
          rw [chunkLoop, hd]
          simp only [hscan]
        rw [hfin]
        have hrec := ih (i - 2) (ci + 1) (by omega)
        cases hv : chunkLoop segs cs f (i - 2) (ci + 1) with
        | none => rw [hv] at hrec; simp at hrec
        | some l => simp [hv]

/-- C1 amended: the loop does not terminate on every segment list (see the
counterexample); it does terminate — within `len(segments) + 1` iterations,
the cursor after each non-final chunk being `max(0, overflow_index - 2)` as
the code sets it — whenever every window of three consecutive segments (two
at the very end) has total text length at most the 1000-character chunk size
target, because then every overflow happens at least three segments past the
cursor and the cursor strictly advances. -/
theorem C1_amended (segs : List TranscriptSegment) (H : triWindowBound segs 1000) :
    (chunk_podcast segs (segs.length + 1)).isSome = true := by
  by_cases he : segs.isEmpty
  · simp [chunk_podcast, he]
  · have ht := chunkLoop_terminates segs 1000 H (segs.length + 1) 0 0 (by omega)
    cases hv : chunkLoop segs 1000 (segs.length + 1) 0 0 with
    | none => rw [hv] at ht; simp at ht
    | some l => simp [chunk_podcast, he, hv]

/-- C1 witness: five segments of 300 characters each satisfy the window
bound, and the loop finishes within six iterations. -/
theorem C1_witness : (chunk_podcast fiveSegs (fiveSegs.length + 1)).isSome = true :=
  C1_amended fiveSegs (by unfold triWindowBound; decide)

/-! Claims C4 and C7: shape of the chunks produced by the podcast loop. -/

theorem chunkLoop_shape (segs : List TranscriptSegment) (cs : ℕ) :
    ∀ fuel pos ci chunks, chunkLoop segs cs fuel pos ci = some chunks →
      (∀ c ∈ chunks,
        c.segment_start_index ≤ c.segment_end_index ∧
        c.segment_end_index < segs.length ∧
        (c.segment_end_index + 1 < segs.length →
          c.end_seconds = (segs.getD (c.segment_end_index + 1) default).start) ∧
        (c.segment_end_index + 1 = segs.length →
          c.end_seconds = (segs.getD c.segment_end_index default).stop) ∧
        c.text = joinSp (((segs.drop c.segment_start_index).take
          (c.segment_end_index + 1 - c.segment_start_index)).map (fun s => s.text))) ∧
      (∀ c, chunks.head? = some c → c.segment_start_index = pos) ∧
      List.Chain' audioPairOk chunks := by
  intro fuel
  induction fuel with
  | zero =>
    intro pos ci chunks h
    exact absurd h (by simp [chunkLoop])
  | succ f ih =>
    intro pos ci chunks h
    cases hd : segs.drop pos with
    | nil =>
      rw [chunkLoop, hd] at h
      obtain rfl : ([] : List AudioChunk) = chunks := by injection h
      simp
    | cons seg0 rest =>
      have hpos : pos < segs.length := drop_cons_lt hd
      have hrest : rest = segs.drop (pos + 1) := (drop_cons_tail hd).symm
      have hseg0 : seg0 = segs.getD pos default :=
        (drop_cons_getD default pos segs seg0 rest hd).symm
      rw [chunkLoop, hd] at h
      cases hscan : (if rest.isEmpty then none
          else scanGo cs seg0.text.length (pos + 1) rest) with
      | some i =>
        simp only [hscan] at h
        cases hv : chunkLoop segs cs f (i - 2) (ci + 1) with
        | none => rw [hv] at h; exact absurd h (by simp)
        | some tl =>
          rw [hv] at h
          simp only [Option.map_some'] at h
          obtain rfl : _ = chunks := by injection h
          have hscan' : scanGo cs seg0.text.length (pos + 1)
              (segs.drop (pos + 1)) = some i := by
            by_cases he : rest.isEmpty
            · rw [if_pos he] at hscan; exact absurd hscan (by simp)
            · rw [if_neg he] at hscan; rw [← hrest]; exact hscan
          have hb := scanGo_bounds cs _ _ _ _ hscan'
          have hlen1 : (segs.drop (pos + 1)).length = segs.length - (pos + 1) :=
            List.length_drop _ _
          have hi1 : pos + 1 ≤ i := hb.1
          have hi2 : i < segs.length := by omega
          obtain ⟨htl_mem, htl_head, htl_chain⟩ := ih (i - 2) (ci + 1) tl hv
          refine ⟨?_, ?_, ?_⟩
          · intro c hc
            rcases List.mem_cons.mp hc with rfl | hc'
            · refine ⟨show pos ≤ i - 1 from by omega,
                show i - 1 < segs.length from by omega, ?_, ?_, ?_⟩
              · intro _
                show (segs.getD i default).start =
                  (segs.getD (i - 1 + 1) default).start
                rw [show i - 1 + 1 = i from by omega]
              · intro heq
                exfalso
                have heq' : i - 1 + 1 = segs.length := heq
                omega
              · show joinSp (((seg0 :: rest).take (i - pos)).map (fun s => s.text)) =
                  joinSp (((segs.drop pos).take (i - 1 + 1 - pos)).map (fun s => s.text))
                rw [show i - 1 + 1 = i from by omega, hd]
            · exact htl_mem c hc'
          · intro c hc
            injection hc with hc'
            rw [← hc']
          · rw [List.chain'_cons']
            refine ⟨?_, htl_chain⟩
            intro y hy
            have hy_start : y.segment_start_index = i - 2 :=
              htl_head y hy
            constructor
            · show y.segment_start_index ≤ i - 1
              omega
            · intro hge
              have hge' : pos + 1 ≤ i - 1 := hge
              show i - 1 = y.segment_start_index + 1
              omega
      | none =>
        simp only [hscan] at h
        cases hv : chunkLoop segs cs f segs.length (ci + 1) with
        | none => rw [hv] at h; exact absurd h (by simp)
        | some tl =>
          rw [hv] at h
          have htl : tl = [] := by
            cases f with
            | zero => exact absurd hv (by simp [chunkLoop])
            | succ f' =>
              rw [chunkLoop, List.drop_length] at hv
              have : ([] : List AudioChunk) = tl := by injection hv
              exact this.symm
          subst htl
          simp only [Option.map_some'] at h
          obtain rfl : _ = chunks := by injection h
          refine ⟨?_, ?_, ?_⟩
          · intro c hc
            rcases List.mem_cons.mp hc with rfl | hc'
            · refine ⟨show pos ≤ segs.length - 1 from by omega,
                show segs.length - 1 < segs.length from by omega, ?_, ?_, ?_⟩
              · intro hlt
                exfalso
                have hlt' : segs.length - 1 + 1 < segs.length := hlt
                omega
              · intro _
                rfl
              · show joinSp ((seg0 :: rest).map (fun s => s.text)) =
                  joinSp (((segs.drop pos).take
                    (segs.length - 1 + 1 - pos)).map (fun s => s.text))
                have hlen2 : (seg0 :: rest).length = segs.length - pos := by
                  rw [← hd]
                  exact List.length_drop _ _
                rw [show segs.length - 1 + 1 - pos = segs.length - pos from by omega,
                  hd, ← hlen2, List.take_length]
            · exact absurd hc' (by simp)
          · intro c hc
            injection hc with hc'
            rw [← hc']
          · simp [List.chain'_singleton]

/-- C4: in every completed run of the podcast chunker every chunk satisfies
`segment_start_index ≤ segment_end_index`, and for consecutive chunks the
later one starts at or before the earlier one's last segment, with an exact
two-segment overlap whenever the earlier chunk contains at least
`overlap_size = 2` segments. -/
theorem C4_main (segs : List TranscriptSegment) (fuel : ℕ)
    (chunks : List AudioChunk)
    (h : chunk_podcast segs fuel = some (ChunkOutcome.success chunks)) :
    (∀ c ∈ chunks, c.segment_start_index ≤ c.segment_end_index) ∧
    List.Chain' audioPairOk chunks := by
  have hl : chunkLoop segs 1000 fuel 0 0 = some chunks := by
    by_cases he : segs.isEmpty
    · rw [chunk_podcast, if_pos he] at h
      exact absurd h (by simp)
    · rw [chunk_podcast, if_neg he] at h
      cases hv : chunkLoop segs 1000 fuel 0 0 with
      | none => rw [hv] at h; exact absurd h (by simp)
      | some l =>
        rw [hv] at h
        simp only [Option.map_some'] at h
        have hl' : ChunkOutcome.success l = ChunkOutcome.success chunks := by
          injection h
        have hlc : l = chunks := by injection hl'
        rw [hlc]
  obtain ⟨hmem, -, hchain⟩ := chunkLoop_shape segs 1000 fuel 0 0 chunks hl
  exact ⟨fun c hc => (hmem c hc).1, hchain⟩

/-- C4 witness: the theorem applied to the concrete five-segment input,
whose completed run has three chunks covering segments 0-2, 1-3 and 2-4. -/
theorem C4_witness : List.Chain' audioPairOk (podChunks fiveSegs 6) :=
  (C4_main fiveSegs 6 (podChunks fiveSegs 6) rfl).2

/-- C7: in every completed run of the podcast chunker, a chunk whose last
segment is not the final segment of the list was closed by overflow, and its
`end_seconds` is the start time of the segment just after its last included
segment (the overflow trigger); a chunk whose last segment is the final one
has `end_seconds` equal to that segment's end time.  Each chunk's text is the
space-join of exactly the segments from `segment_start_index` to
`segment_end_index`. -/
theorem C7_main (segs : List TranscriptSegment) (fuel : ℕ)
    (chunks : List AudioChunk)
    (h : chunk_podcast segs fuel = some (ChunkOutcome.success chunks)) :
    ∀ c ∈ chunks,
      c.segment_end_index < segs.length ∧
      (c.segment_end_index + 1 < segs.length →
        c.end_seconds = (segs.getD (c.segment_end_index + 1) default).start) ∧
      (c.segment_end_index + 1 = segs.length →
        c.end_seconds = (segs.getD c.segment_end_index default).stop) ∧
      c.text = joinSp (((segs.drop c.segment_start_index).take
        (c.segment_end_index + 1 - c.segment_start_index)).map (fun s => s.text)) := by
  have hl : chunkLoop segs 1000 fuel 0 0 = some chunks := by
    by_cases he : segs.isEmpty
    · rw [chunk_podcast, if_pos he] at h
      exact absurd h (by simp)
    · rw [chunk_podcast, if_neg he] at h
      cases hv : chunkLoop segs 1000 fuel 0 0 with
      | none => rw [hv] at h; exact absurd h (by simp)
      | some l =>
        rw [hv] at h
        simp only [Option.map_some'] at h
        have hl' : ChunkOutcome.success l = ChunkOutcome.success chunks := by
          injection h
        have hlc : l = chunks := by injection hl'
        rw [hlc]
  obtain ⟨hmem, -, -⟩ := chunkLoop_shape segs 1000 fuel 0 0 chunks hl
  intro c hc
  obtain ⟨-, h1, h2, h3, h4⟩ := hmem c hc
  exact ⟨h1, h2, h3, h4⟩

/-- C7 witness: the theorem applied to the two-segment input, whose single
chunk is closed by reaching the final segment. -/
theorem C7_witness :
    (firstPodChunk twoSmallSegs 3).segment_end_index < twoSmallSegs.length ∧
    ((firstPodChunk twoSmallSegs 3).segment_end_index + 1 < twoSmallSegs.length →
      (firstPodChunk twoSmallSegs 3).end_seconds =
        (twoSmallSegs.getD ((firstPodChunk twoSmallSegs 3).segment_end_index + 1)
          default).start) ∧
    ((firstPodChunk twoSmallSegs 3).segment_end_index + 1 = twoSmallSegs.length →
      (firstPodChunk twoSmallSegs 3).end_seconds =
        (twoSmallSegs.getD (firstPodChunk twoSmallSegs 3).segment_end_index
          default).stop) ∧
    (firstPodChunk twoSmallSegs 3).text =
      joinSp (((twoSmallSegs.drop
          (firstPodChunk twoSmallSegs 3).segment_start_index).take
        ((firstPodChunk twoSmallSegs 3).segment_end_index + 1 -
          (firstPodChunk twoSmallSegs 3).segment_start_index)).map
        (fun s => s.text)) :=
  C7_main twoSmallSegs 3 (podChunks twoSmallSegs 3) rfl
    (firstPodChunk twoSmallSegs 3) (by decide)

/-! Claim C6: combining multi-piece transcriptions. -/

/-- C6: for a non-empty list of transcription pieces, `combine_transcriptions`
succeeds, its merged segment list is sorted by start time, it is a
permutation of the input segments with the per-piece offset applied, and
every segment of piece `i` appears with both its timestamps increased by
exactly `i * 600` seconds. -/
theorem C6_main (pieces : List (List TranscriptSegment)) (h : pieces ≠ []) :
    (combine_transcriptions pieces).isSome = true ∧
    List.Sorted segStartLE (combSegs pieces) ∧
    List.Perm (combSegs pieces) (adjustedSegments pieces) ∧
    (∀ (i : ℕ) (pi : List TranscriptSegment) (s : TranscriptSegment),
      pieces[i]? = some pi → s ∈ pi →
      (⟨s.text, s.start + (i : ℚ) * 600, s.stop + (i : ℚ) * 600⟩ :
        TranscriptSegment) ∈ combSegs pieces) := by
  have he : pieces.isEmpty = false := by
    cases pieces with
    | nil => exact absurd rfl h
    | cons a l => rfl
  have hc : combine_transcriptions pieces =
      some ⟨joinSp ((List.insertionSort segStartLE (adjustedSegments pieces)).map
        (fun s => s.text)),
        List.insertionSort segStartLE (adjustedSegments pieces)⟩ := by
    rw [combine_transcriptions, he]
    rfl
  have hsegs : combSegs pieces =
      List.insertionSort segStartLE (adjustedSegments pieces) := by
    rw [combSegs, hc]
  refine ⟨by rw [hc]; rfl, ?_, ?_, ?_⟩
  · rw [hsegs]
    exact List.sorted_insertionSort segStartLE (adjustedSegments pieces)
  · rw [hsegs]
    exact List.perm_insertionSort segStartLE (adjustedSegments pieces)
  · intro i pi s hpi hs
    rw [hsegs]
    have hmem : offsetSeg i s ∈ adjustedSegments pieces := by
      rw [adjustedSegments, List.mem_flatten]
      refine ⟨pi.map (offsetSeg i), ?_, List.mem_map_of_mem _ hs⟩
      rw [List.mem_map]
      exact ⟨(i, pi), List.mk_mem_enum_iff_getElem?.mpr hpi, rfl⟩
    exact ((List.perm_insertionSort segStartLE _).mem_iff).mpr hmem

/-- C6 witness: the theorem applied to two concrete one-segment pieces; the
second piece's segment is shifted by 600 seconds and the merge is sorted. -/
theorem C6_witness :
    (combine_transcriptions [[⟨['b'], 30, 40⟩], [⟨['a'], 5, 10⟩]]).isSome = true ∧
    List.Sorted segStartLE (combSegs [[⟨['b'], 30, 40⟩], [⟨['a'], 5, 10⟩]]) :=
  ⟨(C6_main [[⟨['b'], 30, 40⟩], [⟨['a'], 5, 10⟩]] (by decide)).1,
   (C6_main [[⟨['b'], 30, 40⟩], [⟨['a'], 5, 10⟩]] (by decide)).2.1⟩

/-! Claim C9: page numbers across the returned chunk sequence. -/

/-- C9 counterexample: with out-of-order page markers the emitted page
numbers are 9, 1, 9, which is not non-decreasing (the middle chunk's
start-position lookup lands on a negative key after the overlap carry and
falls back to the default page 1). -/
theorem C9_counterexample :
    (split_text_into_chunks
        ("[PAGE_BREAK_9]\n\n[PAGE_BREAK_1]aaaa\n\nbbbb".toList) 4 0).map
      TextChunk.page = [9, 1, 9] ∧
    ¬ List.Chain' (fun a b => a ≤ b) ([9, 1, 9] : List ℕ) :=
  ⟨rfl, fun hch => by have h91 := (List.chain'_cons.mp hch).1; omega⟩

theorem pageGet_no_markers (t : List Char) (h : findMarkers t = []) (k : ℤ) :
    pageGet t k 1 = 1 := by
  rw [pageGet]
  split
  · cases hg : (origPositions t).get? k.toNat with
    | none => simp [hg]
    | some o =>
      simp only [hg]
      rw [h]
      rfl
  · rfl

theorem stepSent_pages_one (t : List Char) (h : findMarkers t = [])
    (maxs ov pP : ℕ) (hpP : pP = 1) (st : SentState) (s : List Char)
    (hst : ∀ c ∈ st.chunks, c.page = 1) :
    ∀ c ∈ (stepSent (pageGet t) maxs ov pP st s).chunks, c.page = 1 := by
  rw [stepSent]
  split
  · exact hst
  · intro c hc
    rcases List.mem_append.mp hc with hc' | hc'
    · exact hst c hc'
    · rw [List.mem_singleton] at hc'
      subst hc'
      show pageGet t st.spos pP = 1
      rw [hpP]
      exact pageGet_no_markers t h _

theorem foldSent_pages (t : List Char) (h : findMarkers t = [])
    (maxs ov pP : ℕ) (hpP : pP = 1) :
    ∀ (l : List (List Char)) (st : SentState),
      (∀ c ∈ st.chunks, c.page = 1) →
      ∀ c ∈ (l.foldl (stepSent (pageGet t) maxs ov pP) st).chunks, c.page = 1 := by
  intro l
  induction l with
  | nil => intro st hst; exact hst
  | cons s rest ih =>
    intro st hst
    rw [List.foldl_cons]
    exact ih _ (stepSent_pages_one t h maxs ov pP hpP st s hst)

theorem stepPara_pages_one (t : List Char) (h : findMarkers t = [])
    (maxs ov : ℕ) (st : SState) (p : List Char)
    (hst : ∀ c ∈ st.chunks, c.page = 1) :
    ∀ c ∈ (stepPara (pageGet t) maxs ov st p).chunks, c.page = 1 := by
  have hpP : pageGet t st.curPos 1 = 1 := pageGet_no_markers t h _
  have fold1 : ∀ c ∈ (List.foldl (stepSent (pageGet t) maxs ov (pageGet t st.curPos 1))
      ⟨st.chunks ++ [⟨joinPP st.cur, pageGet t (st.curPos - (st.curSize : ℤ)) 1⟩],
        [], 0, st.curPos⟩ (sentSplit p)).chunks, c.page = 1 := by
    apply foldSent_pages t h maxs ov _ hpP
    intro c' hc'
    rcases List.mem_append.mp hc' with h3 | h3
    · exact hst c' h3
    · rw [List.mem_singleton] at h3
      subst h3
      exact pageGet_no_markers t h _
  have fold2 : ∀ c ∈ (List.foldl (stepSent (pageGet t) maxs ov (pageGet t st.curPos 1))
      ⟨st.chunks, [], 0, st.curPos⟩ (sentSplit p)).chunks, c.page = 1 :=
    foldSent_pages t h maxs ov _ hpP (sentSplit p) ⟨st.chunks, [], 0, st.curPos⟩ hst
  rw [stepPara]
  dsimp only
  split_ifs with h1 h2 h3 h4 h5
  all_goals intro c hc
  all_goals first
    | exact hst c hc
    | exact fold1 c hc
    | exact fold2 c hc
    | (rcases List.mem_append.mp hc with hc' | hc'
       · first
         | exact hst c hc'
         | exact fold1 c hc'
         | exact fold2 c hc'
       · rw [List.mem_singleton] at hc'
         subst hc'
         first
         | exact hpP
         | exact pageGet_no_markers t h _)

theorem foldPara_pages (t : List Char) (h : findMarkers t = []) (maxs ov : ℕ) :
    ∀ (l : List (List Char)) (st : SState),
      (∀ c ∈ st.chunks, c.page = 1) →
      ∀ c ∈ (l.foldl (stepPara (pageGet t) maxs ov) st).chunks, c.page = 1 := by
  intro l
  induction l with
  | nil => intro st hst; exact hst
  | cons p rest ih =>
    intro st hst
    rw [List.foldl_cons]
    exact ih _ (stepPara_pages_one t h maxs ov st p hst)

theorem chain_pages_const : ∀ (l : List TextChunk), (∀ c ∈ l, c.page = 1) →
    List.Chain' (fun a b => a.page ≤ b.page) l := by
  intro l
  induction l with
  | nil => intro _; simp
  | cons a rest ih =>
    intro hl
    rw [List.chain'_cons']
    refine ⟨?_, ih (fun c hc => hl c (List.mem_cons_of_mem _ hc))⟩
    intro y hy
    have ha : a.page = 1 := hl a (List.mem_cons_self _ _)
    have hy' : y.page = 1 :=
      hl y (List.mem_cons_of_mem _ (List.mem_of_mem_head? hy))
    rw [ha, hy']

/-- C9 amended: the page sequence is not non-decreasing for every input (see
the counterexample with out-of-order markers); when the text contains no page
markers, every chunk is attributed page 1, and the page sequence is therefore
non-decreasing. -/
theorem C9_amended (t : List Char) (maxs ov : ℕ) (h : findMarkers t = []) :
    (∀ c ∈ split_text_into_chunks t maxs ov, c.page = 1) ∧
    List.Chain' (fun a b => a.page ≤ b.page) (split_text_into_chunks t maxs ov) := by
  have hall : ∀ c ∈ split_text_into_chunks t maxs ov, c.page = 1 := by
    rw [split_text_into_chunks]
    split_ifs with hfin
    · intro c hc
      rcases List.mem_append.mp hc with hc' | hc'
      · exact foldPara_pages t h maxs ov (paraSplit (cleanText t)) ⟨[], [], 0, 0⟩
          (by intro c' hc''; exact absurd hc'' (by simp)) c hc'
      · rw [List.mem_singleton] at hc'
        subst hc'
        exact pageGet_no_markers t h _
    · exact foldPara_pages t h maxs ov (paraSplit (cleanText t)) ⟨[], [], 0, 0⟩
        (by intro c' hc''; exact absurd hc'' (by simp))
  exact ⟨hall, chain_pages_const _ hall⟩

/-- C9 witness: the amended statement applied to a marker-free document. -/
theorem C9_witness :
    List.Chain' (fun a b => a.page ≤ b.page)
      (split_text_into_chunks ("hello".toList) 7 3) :=
  (C9_amended ("hello".toList) 7 3 (by decide)).2

/-! Claim C2: the chunk size bound of the text chunker. -/

/-- C2 counterexample: with `max_size = 10`, `overlap = 8` the second emitted
chunk is the twelve-character two-paragraph text `"aaaa.\n\nbbbb."`, which
exceeds the bound although it contains an internal sentence boundary (its
sentence split has two pieces) and is not a single atomic sentence unit of
the input. -/
theorem C2_counterexample :
    (split_text_into_chunks ("aaaa.\n\nbbbb.\n\ncccc.".toList) 10 8).map
        (fun c => c.text) =
      ["aaaa.".toList, "aaaa.\n\nbbbb.".toList, "bbbb.\n\ncccc.".toList] ∧
    ("aaaa.\n\nbbbb.".toList).length = 12 ∧ ¬ (12 ≤ 10) ∧
    sentSplit ("aaaa.\n\nbbbb.".toList) = ["aaaa.".toList, "bbbb.".toList] ∧
    ¬ isSentenceOf ("aaaa.\n\nbbbb.\n\ncccc.".toList) ("aaaa.\n\nbbbb.".toList) := by
  refine ⟨rfl, rfl, by norm_num, rfl, ?_⟩
  unfold isSentenceOf
  decide

theorem joinSp_length : ∀ (l : List (List Char)), l ≠ [] →
    (joinSp l).length + 1 = sumSp l := by
  intro l
  induction l with
  | nil => intro h; exact absurd rfl h
  | cons x xs ih =>
    intro _
    cases xs with
    | nil => simp [joinSp, sumSp]
    | cons y ys =>
      have := ih (by simp)
      rw [joinSp]
      simp only [List.length_append, List.length_cons]
      rw [sumSp] at *
      simp only [List.map_cons, List.sum_cons] at *
      omega

theorem joinPP_length : ∀ (l : List (List Char)), l ≠ [] →
    (joinPP l).length + 2 = sumPP l := by
  intro l
  induction l with
  | nil => intro h; exact absurd rfl h
  | cons x xs ih =>
    intro _
    cases xs with
    | nil => simp [joinPP, sumPP]
    | cons y ys =>
      have := ih (by simp)
      rw [joinPP]
      simp only [List.length_append, List.length_cons]
      rw [sumPP] at *
      simp only [List.map_cons, List.sum_cons] at *
      omega

theorem takeOvl_zero (x : List Char) (r : List (List Char)) (sz : ℕ)
    (hx : x ≠ []) : takeOvl 0 (x :: r) sz = [] := by
  rw [takeOvl]
  rw [if_neg]
  intro hle
  have : x.length = 0 := by omega
  exact hx (List.length_eq_zero.mp this)

theorem sch_emit_good (t : List Char) (maxs : ℕ) (p : List Char)
    (hp : p ∈ paraSplit (cleanText t)) (st : SentState)
    (hinv : SentInv t maxs p st) (hnn : st.sch ≠ []) :
    (joinSp st.sch).length ≤ maxs ∨ isSentenceOf t (joinSp st.sch) := by
  obtain ⟨-, -, hsum, hbound, hmem⟩ := hinv
  cases hlen : st.sch with
  | nil => exact absurd hlen hnn
  | cons x rest =>
    cases rest with
    | nil =>
      right
      refine ⟨p, hp, ?_⟩
      exact hmem x (by rw [hlen]; simp)
    | cons y rest2 =>
      left
      have hb := hbound (by rw [hlen]; simp)
      have hsz := hsum hnn
      rw [hlen] at hsz
      have hj := joinSp_length (x :: y :: rest2) (by simp)
      omega

theorem stepSent_inv_one (t : List Char) (maxs : ℕ) (pm : ℤ → ℕ → ℕ) (pP : ℕ)
    (p : List Char) (hp : p ∈ paraSplit (cleanText t)) (st : SentState)
    (s : List Char) (hs : s ∈ sentSplit p) (hinv : SentInv t maxs p st) :
    SentInv t maxs p (stepSent pm maxs 0 pP st s) := by
  obtain ⟨hchunks, hempty, hsum, hbound, hmem⟩ := hinv
  by_cases hcond : st.ssz + s.length ≤ maxs ∨ st.sch = []
  · rw [stepSent, if_pos hcond]
    have hs0 : st.ssz = sumSp st.sch := by
      by_cases hn : st.sch = []
      · rw [hn, hempty hn]; rfl
      · exact hsum hn
    refine ⟨hchunks, ?_, ?_, ?_, ?_⟩
    · intro hnil
      exact absurd hnil (by simp)
    · intro _
      show st.ssz + s.length + 1 = sumSp (st.sch ++ [s])
      rw [hs0]
      simp only [sumSp, List.map_append, List.sum_append, List.map_cons,
        List.sum_cons, List.map_nil, List.sum_nil]
      omega
    · intro h2
      by_cases hn : st.sch = []
      · show st.ssz + s.length + 1 ≤ maxs + 1
        rw [hn] at h2
        simp at h2
      · have hle : st.ssz + s.length ≤ maxs := hcond.resolve_right hn
        show st.ssz + s.length + 1 ≤ maxs + 1
        omega
    · intro x hx
      rcases List.mem_append.mp hx with hx' | hx'
      · exact hmem x hx'
      · rw [List.mem_singleton] at hx'
        subst hx'
        exact hs
  · rw [stepSent, if_neg hcond]
    push_neg at hcond
    obtain ⟨hgt, hnn⟩ := hcond
    dsimp only
    have hkept : st.sch.drop (st.sch.length - 0 / 10) = [] := by
      simp
    rw [hkept]
    refine ⟨?_, ?_, ?_, ?_, ?_⟩
    · intro c hc
      rcases List.mem_append.mp hc with hc' | hc'
      · exact hchunks c hc'
      · rw [List.mem_singleton] at hc'
        subst hc'
        exact sch_emit_good t maxs p hp st ⟨hchunks, hempty, hsum, hbound, hmem⟩ hnn
    · intro hnil
      exact absurd hnil (by simp)
    · intro _
      simp [sumSp]
    · intro h2
      simp at h2
    · intro x hx
      rcases List.mem_append.mp hx with hx' | hx'
      · exact absurd hx' (by simp)
      · rw [List.mem_singleton] at hx'
        subst hx'
        exact hs

theorem foldSent_inv (t : List Char) (maxs : ℕ) (pm : ℤ → ℕ → ℕ) (pP : ℕ)
    (p : List Char) (hp : p ∈ paraSplit (cleanText t)) :
    ∀ (l : List (List Char)) (st : SentState),
      (∀ s ∈ l, s ∈ sentSplit p) → SentInv t maxs p st →
      SentInv t maxs p (l.foldl (stepSent pm maxs 0 pP) st) := by
  intro l
  induction l with
  | nil => intro st _ hinv; exact hinv
  | cons s rest ih =>
    intro st hl hinv
    rw [List.foldl_cons]
    exact ih _ (fun x hx => hl x (List.mem_cons_of_mem _ hx))
      (stepSent_inv_one t maxs pm pP p hp st s (hl s (List.mem_cons_self _ _)) hinv)

theorem stepPara_inv_one (t : List Char) (maxs : ℕ) (pm : ℤ → ℕ → ℕ)
    (st : SState) (p : List Char) (hp : p ∈ paraSplit (cleanText t))
    (hpne : p ≠ []) (hinv : ParaInv t maxs st) :
    ParaInv t maxs (stepPara pm maxs 0 st p) := by
  obtain ⟨hchunks, hempty, hsum, hbound, hmemcur⟩ := hinv
  have hsz0 : st.curSize = sumPP st.cur := by
    by_cases hn : st.cur = []
    · rw [hn, hempty hn]; rfl
    · exact hsum hn
  have hpre : st.cur ≠ [] →
      (joinPP st.cur).length ≤ maxs ∨ isSentenceOf t (joinPP st.cur) := by
    intro hnn
    left
    have hj := joinPP_length st.cur hnn
    omega
  rw [stepPara]
  dsimp only
  split_ifs with h1 h2 h3 h4 h5
  -- branch: oversized paragraph, current chunk flushed, trailing sentence chunk
  · have hfold := foldSent_inv t maxs pm (pm st.curPos 1) p hp (sentSplit p)
      ⟨st.chunks ++ [⟨joinPP st.cur, pm (st.curPos - (st.curSize : ℤ)) 1⟩],
        [], 0, st.curPos⟩ (fun s hs => hs)
      ⟨by
        intro c hc
        rcases List.mem_append.mp hc with hc' | hc'
        · exact hchunks c hc'
        · rw [List.mem_singleton] at hc'
          subst hc'
          exact hpre h2,
        by intro _; rfl, by intro hn; exact absurd rfl hn,
        by intro h2'; simp at h2', by intro x hx; exact absurd hx (by simp)⟩
    refine ⟨?_, by intro _; rfl, by intro hn; exact absurd rfl hn,
      by show (0 : ℕ) ≤ maxs + 2; omega,
      by intro q hq; exact absurd hq (by simp)⟩
    intro c hc
    rcases List.mem_append.mp hc with hc' | hc'
    · exact hfold.1 c hc'
    · rw [List.mem_singleton] at hc'
      subst hc'
      exact sch_emit_good t maxs p hp _ hfold h3
  -- branch: oversized paragraph, current chunk flushed, no trailing chunk
  · have hfold := foldSent_inv t maxs pm (pm st.curPos 1) p hp (sentSplit p)
      ⟨st.chunks ++ [⟨joinPP st.cur, pm (st.curPos - (st.curSize : ℤ)) 1⟩],
        [], 0, st.curPos⟩ (fun s hs => hs)
      ⟨by
        intro c hc
        rcases List.mem_append.mp hc with hc' | hc'
        · exact hchunks c hc'
        · rw [List.mem_singleton] at hc'
          subst hc'
          exact hpre h2,
        by intro _; rfl, by intro hn; exact absurd rfl hn,
        by intro h2'; simp at h2', by intro x hx; exact absurd hx (by simp)⟩
    exact ⟨hfold.1, by intro _; rfl, by intro hn; exact absurd rfl hn,
      by show (0 : ℕ) ≤ maxs + 2; omega,
      by intro q hq; exact absurd hq (by simp)⟩
  -- branch: oversized paragraph, empty current chunk, trailing sentence chunk
  · have hcur : st.cur = [] := not_not.mp h2
    have hfold := foldSent_inv t maxs pm (pm st.curPos 1) p hp (sentSplit p)
      ⟨st.chunks, [], 0, st.curPos⟩ (fun s hs => hs)
      ⟨hchunks, by intro _; rfl, by intro hn; exact absurd rfl hn,
        by intro h2'; simp at h2', by intro x hx; exact absurd hx (by simp)⟩
    refine ⟨?_, by intro _; exact hempty hcur, ?_,
      by show st.curSize ≤ maxs + 2; omega,
      by intro q hq; exact hmemcur q hq⟩
    · intro c hc
      rcases List.mem_append.mp hc with hc' | hc'
      · exact hfold.1 c hc'
      · rw [List.mem_singleton] at hc'
        subst hc'
        exact sch_emit_good t maxs p hp _ hfold (by assumption)
    · intro hn
      exact absurd hcur hn
  -- branch: oversized paragraph, empty current chunk, no trailing chunk
  · have hcur : st.cur = [] := not_not.mp h2
    have hfold := foldSent_inv t maxs pm (pm st.curPos 1) p hp (sentSplit p)
      ⟨st.chunks, [], 0, st.curPos⟩ (fun s hs => hs)
      ⟨hchunks, by intro _; rfl, by intro hn; exact absurd rfl hn,
        by intro h2'; simp at h2', by intro x hx; exact absurd hx (by simp)⟩
    refine ⟨hfold.1, by intro _; exact hempty hcur, ?_,
      by show st.curSize ≤ maxs + 2; omega,
      by intro q hq; exact hmemcur q hq⟩
    intro hn
    exact absurd hcur hn
  -- branch: regular paragraph appended to the current chunk
  · refine ⟨hchunks, ?_, ?_, ?_, ?_⟩
    · intro hn
      exact absurd hn (by simp)
    · intro _
      show st.curSize + p.length + 2 = sumPP (st.cur ++ [p])
      rw [hsz0]
      simp only [sumPP, List.map_append, List.sum_append, List.map_cons,
        List.sum_cons, List.map_nil, List.sum_nil]
      omega
    · show st.curSize + p.length + 2 ≤ maxs + 2
      omega
    · intro q hq
      rcases List.mem_append.mp hq with hq' | hq'
      · exact hmemcur q hq'
      · rw [List.mem_singleton] at hq'
        subst hq'
        exact hpne
  -- branch: regular paragraph overflowing the current chunk
  · have hple : p.length ≤ maxs := by omega
    have hcur : st.cur ≠ [] := by
      intro hn
      have h0 : st.curSize = 0 := hempty hn
      omega
    obtain ⟨x, r, hrev⟩ : ∃ x r, st.cur.reverse = x :: r := by
      cases hr : st.cur.reverse with
      | nil => exact absurd (by simpa using congrArg List.reverse hr) hcur
      | cons a b => exact ⟨a, b, rfl⟩
    have hx : x ∈ st.cur := by
      rw [← List.mem_reverse, hrev]
      simp
    have hov : takeOvl 0 st.cur.reverse 0 = [] := by
      rw [hrev]
      exact takeOvl_zero x r 0 (hmemcur x hx)
    rw [hov]
    refine ⟨?_, ?_, ?_, ?_, ?_⟩
    · intro c hc
      rcases List.mem_append.mp hc with hc' | hc'
      · exact hchunks c hc'
      · rw [List.mem_singleton] at hc'
        subst hc'
        exact hpre hcur
    · intro hn
      exact absurd hn (by simp)
    · intro _
      rfl
    · show sumPP ([] ++ [p]) ≤ maxs + 2
      simp only [List.nil_append, sumPP, List.map_cons, List.sum_cons,
        List.map_nil, List.sum_nil]
      omega
    · intro q hq
      rcases List.mem_append.mp hq with hq' | hq'
      · exact absurd hq' (by simp)
      · rw [List.mem_singleton] at hq'
        subst hq'
        exact hpne

theorem foldPara_inv (t : List Char) (maxs : ℕ) (pm : ℤ → ℕ → ℕ) :
    ∀ (l : List (List Char)) (st : SState),
      (∀ p ∈ l, p ∈ paraSplit (cleanText t) ∧ p ≠ []) → ParaInv t maxs st →
      ParaInv t maxs (l.foldl (stepPara pm maxs 0) st) := by
  intro l
  induction l with
  | nil => intro st _ hinv; exact hinv
  | cons p rest ih =>
    intro st hl hinv
    rw [List.foldl_cons]
    exact ih _ (fun x hx => hl x (List.mem_cons_of_mem _ hx))
      (stepPara_inv_one t maxs pm st p (hl p (List.mem_cons_self _ _)).1
        (hl p (List.mem_cons_self _ _)).2 hinv)

/-- C2 amended: the size bound fails in general because of overlap carry-over
(see the counterexample); it holds with `overlap = 0` on texts whose
paragraph split contains no empty piece: every returned chunk is within
`max_size` except chunks that consist of a single atomic sentence unit of the
input. -/
theorem C2_amended (t : List Char) (maxs : ℕ)
    (hne : [] ∉ paraSplit (cleanText t)) :
    ∀ c ∈ split_text_into_chunks t maxs 0,
      c.text.length ≤ maxs ∨ isSentenceOf t c.text := by
  have hfold : ParaInv t maxs ((paraSplit (cleanText t)).foldl
      (stepPara (pageGet t) maxs 0) ⟨[], [], 0, 0⟩) := by
    apply foldPara_inv t maxs (pageGet t) (paraSplit (cleanText t)) ⟨[], [], 0, 0⟩
    · intro p hp
      refine ⟨hp, ?_⟩
      intro hq
      subst hq
      exact hne hp
    · exact ⟨by intro c hc; exact absurd hc (by simp), by intro _; rfl,
        by intro hn; exact absurd rfl hn, by show (0 : ℕ) ≤ maxs + 2; omega,
        by intro q hq; exact absurd hq (by simp)⟩
  obtain ⟨hchunks, hempty, hsum, hbound, -⟩ := hfold
  rw [split_text_into_chunks]
  split_ifs with hfin
  · intro c hc
    rcases List.mem_append.mp hc with hc' | hc'
    · exact hchunks c hc'
    · rw [List.mem_singleton] at hc'
      subst hc'
      left
      have hj := joinPP_length _ hfin
      have hsz := hsum hfin
      dsimp only
      omega
  · exact hchunks

/-- C2 witness: the amended statement applied to a document that is a single
oversized paragraph of two sentences, at its first emitted chunk. -/
theorem C2_witness :
    (TextChunk.mk ("aa.".toList) 1).text.length ≤ 3 ∨
    isSentenceOf ("aa. bb.".toList) (TextChunk.mk ("aa.".toList) 1).text :=
  C2_amended ("aa. bb.".toList) 3 (by decide) (TextChunk.mk ("aa.".toList) 1) (by decide)

/-! Claim C10: the offset-translation bookkeeping of the page mapper. -/

/-- C10 counterexample: a text with one complete marker and one stray
occurrence of the literal `'[PAGE_BREAK_'` (not followed by digits and a
bracket).  The marker count is 1 and the text length 28, so the claim
predicts a largest recorded clean position of 26; the offset loop excludes
both literal occurrences, so the largest key is in fact 25. -/
theorem C10_counterexample :
    (findMarkers ("[PAGE_BREAK_1]ab[PAGE_BREAK_".toList)).length = 1 ∧
    "[PAGE_BREAK_1]ab[PAGE_BREAK_".toList.length = 28 ∧
    (origPositions ("[PAGE_BREAK_1]ab[PAGE_BREAK_".toList)).length - 1 = 25 ∧
    28 - 1 - 1 = 26 ∧ (25 : ℕ) ≠ 26 := by
  exact ⟨rfl, rfl, rfl, rfl, by norm_num⟩

theorem getD_eq_headD_drop {α : Type} (d : α) :
    ∀ (n : ℕ) (l : List α), l.getD n d = (l.drop n).headD d := by
  intro n
  induction n with
  | zero => intro l; cases l <;> rfl
  | succ k ih =>
    intro l
    cases l with
    | nil => rfl
    | cons a as =>
      simp only [List.getD_cons_succ, List.drop_succ_cons]
      exact ih as

theorem isPrefixOf_exists {α : Type} [BEq α] [LawfulBEq α] :
    ∀ (l s : List α), l.isPrefixOf s = true → ∃ u, s = l ++ u := by
  intro l
  induction l with
  | nil => intro s _; exact ⟨s, rfl⟩
  | cons a as ih =>
    intro s h
    cases s with
    | nil => simp [List.isPrefixOf] at h
    | cons b bs =>
      rw [List.isPrefixOf, Bool.and_eq_true] at h
      have hab : a = b := eq_of_beq h.1
      obtain ⟨u, hu⟩ := ih bs h.2
      exact ⟨u, by rw [hu, hab]; rfl⟩

theorem getD_mem_of_lt {α : Type} (d : α) :
    ∀ (l : List α) (n : ℕ), n < l.length → l.getD n d ∈ l := by
  intro l
  induction l with
  | nil => intro n h; simp at h
  | cons a as ih =>
    intro n h
    cases n with
    | zero => simp
    | succ k =>
      simp only [List.getD_cons_succ]
      exact List.mem_cons_of_mem _ (ih k (by simpa using h))

theorem markerLit_head_getD (t : List Char) (j : ℕ)
    (h : markerLit.isPrefixOf (t.drop j) = true) : t.getD j ' ' = '[' := by
  obtain ⟨u, hu⟩ := isPrefixOf_exists markerLit (t.drop j) h
  rw [getD_eq_headD_drop, hu]
  rfl

theorem matchMarkerAt_bounds (t : List Char) (i pg len : ℕ)
    (h : matchMarkerAt t i = some (pg, len)) : 14 ≤ len ∧ i + len ≤ t.length := by
  simp only [matchMarkerAt] at h
  split_ifs at h with h1 h2
  · simp only [Option.some.injEq, Prod.mk.injEq] at h
    obtain ⟨-, hlen⟩ := h
    obtain ⟨h2a, h2b⟩ := h2
    constructor
    · omega
    · have hlt := congrArg List.length h2b
      rw [List.length_take] at hlt
      simp only [List.length_singleton] at hlt
      rw [List.length_drop, List.length_drop] at hlt
      omega

theorem marker_inside_no_match (t : List Char) (a pg len : ℕ)
    (hm : matchMarkerAt t a = some (pg, len)) :
    ∀ j, a < j → j < a + len → matchMarkerAt t j = none := by
  intro j hj1 hj2
  have hmm := hm
  simp only [matchMarkerAt] at hmm
  split_ifs at hmm with h1 h2
  simp only [Option.some.injEq, Prod.mk.injEq] at hmm
  obtain ⟨-, hlen⟩ := hmm
  obtain ⟨h2a, h2b⟩ := h2
  obtain ⟨u, hu⟩ := isPrefixOf_exists markerLit (t.drop a) h1
  have hu12 : (t.drop a).drop 12 = u := by
    rw [hu, show (12 : ℕ) = markerLit.length from rfl, List.drop_left]
  have hja : t.getD j ' ' = (t.drop a).getD (j - a) ' ' := by
    rw [getD_eq_headD_drop ' ' j t, getD_eq_headD_drop ' ' (j - a) (t.drop a),
      List.drop_drop]
    congr 2
    omega
  have hne : t.getD j ' ' ≠ '[' := by
    rw [hja, hu]
    set k := j - a with hk
    have hk1 : 1 ≤ k := by omega
    have hklen : k < len := by omega
    by_cases hk12 : k < 12
    · rw [List.getD_append markerLit u ' ' k
        (by rw [show markerLit.length = 12 from rfl]; omega)]
      interval_cases k <;> decide
    · push_neg at hk12
      rw [List.getD_append_right markerLit u ' ' k
        (by rw [show markerLit.length = 12 from rfl]; omega)]
      rw [show markerLit.length = 12 from rfl]
      set ds := ((t.drop a).drop 12).takeWhile Char.isDigit with hds
      have hdsu : ds = u.takeWhile Char.isDigit := by rw [hds, hu12]
      by_cases hkd : k - 12 < ds.length
      · have hsplit : ds ++ u.dropWhile Char.isDigit = u := by
          rw [hdsu]
          exact List.takeWhile_append_dropWhile _ _
        rw [← hsplit, List.getD_append ds (u.dropWhile Char.isDigit) ' ' (k - 12) hkd]
        intro hch
        have hmemd : ds.getD (k - 12) ' ' ∈ ds := getD_mem_of_lt ' ' ds (k - 12) hkd
        rw [hdsu] at hmemd
        have hdig := List.mem_takeWhile_imp hmemd
        rw [hdsu] at hch
        rw [hch] at hdig
        exact absurd hdig (by decide)
      · have hkd' : k - 12 = ds.length := by omega
        have hdd : (t.drop a).drop (12 + ds.length) = u.drop ds.length := by
          rw [← List.drop_drop, hu12]
        rw [hdd] at h2b
        have hhd : u.getD ds.length ' ' = ']' := by
          rw [getD_eq_headD_drop]
          cases hud : u.drop ds.length with
          | nil => rw [hud] at h2b; simp at h2b
          | cons c cs =>
            rw [hud] at h2b
            simp only [List.take_succ_cons, List.take_zero] at h2b
            have hc : c = ']' := by
              have := congrArg (fun l => List.headD l ' ') h2b
              simpa using this
            rw [hc]
            rfl
        rw [hkd', hhd]
        decide
  simp only [matchMarkerAt]
  rw [if_neg]
  intro hp
  exact hne (markerLit_head_getD t j hp)

theorem markerScan_inv (t : List Char) :
    ∀ a, a ≤ t.length →
      ((List.range a).foldl (markerScanStep t) ([], [], 0)).2.2 ≤ t.length ∧
      ((List.range a).foldl (markerScanStep t) ([], [], 0)).2.1.length +
        14 * ((List.range a).foldl (markerScanStep t) ([], [], 0)).1.length ≤
        a + (((List.range a).foldl (markerScanStep t) ([], [], 0)).2.2 - a) ∧
      ((List.range a).foldl (markerScanStep t) ([], [], 0)).1.length =
        (List.range a).countP (fun i => (matchMarkerAt t i).isSome) ∧
      (∀ j, a ≤ j → j < ((List.range a).foldl (markerScanStep t) ([], [], 0)).2.2 →
        matchMarkerAt t j = none) := by
  intro a
  induction a with
  | zero =>
    intro _
    refine ⟨by simp, by simp, by simp, ?_⟩
    intro j _ hj
    simp [List.range_zero] at hj
  | succ a ih =>
    intro ha
    obtain ⟨hfree, hcount, hcnt, hnomatch⟩ := ih (by omega)
    have hstep : (List.range (a + 1)).foldl (markerScanStep t) ([], [], 0) =
        markerScanStep t ((List.range a).foldl (markerScanStep t) ([], [], 0)) a := by
      rw [List.range_succ, List.foldl_append, List.foldl_cons, List.foldl_nil]
    rw [hstep, markerScanStep]
    split_ifs with hlt
    · refine ⟨hfree, by omega, ?_, ?_⟩
      · rw [List.range_succ, List.countP_append]
        have hfalse : (matchMarkerAt t a).isSome = false := by
          rw [hnomatch a (le_refl a) hlt]
          rfl
        simp [List.countP_cons, hfalse, hcnt]
      · intro j hj hjf
        exact hnomatch j (by omega) hjf
    · cases hm : matchMarkerAt t a with
      | some pr =>
        obtain ⟨pg, len⟩ := pr
        have hb := matchMarkerAt_bounds t a pg len hm
        refine ⟨?_, ?_, ?_, ?_⟩
        · show a + len ≤ t.length
          omega
        · show ((List.range a).foldl (markerScanStep t) ([], [], 0)).2.1.length +
            14 * (((List.range a).foldl (markerScanStep t) ([], [], 0)).1 ++
              [(a, pg)]).length ≤ (a + 1) + (a + len - (a + 1))
          rw [List.length_append, List.length_singleton]
          omega
        · show (((List.range a).foldl (markerScanStep t) ([], [], 0)).1 ++
            [(a, pg)]).length = _
          rw [List.range_succ, List.countP_append, List.length_append,
            List.length_singleton]
          have htrue : (matchMarkerAt t a).isSome = true := by
            rw [hm]
            rfl
          simp [List.countP_cons, htrue, hcnt]
        · intro j hj hjf
          have hjf' : j < a + len := hjf
          exact marker_inside_no_match t a pg len hm j (by omega) hjf'
      | none =>
        refine ⟨hfree, ?_, ?_, ?_⟩
        · show (((List.range a).foldl (markerScanStep t) ([], [], 0)).2.1 ++
            [t.getD a ' ']).length + 14 *
            ((List.range a).foldl (markerScanStep t) ([], [], 0)).1.length ≤
            (a + 1) + (((List.range a).foldl (markerScanStep t) ([], [], 0)).2.2 -
              (a + 1))
          rw [List.length_append, List.length_singleton]
          omega
        · rw [List.range_succ, List.countP_append]
          have hfalse : (matchMarkerAt t a).isSome = false := by
            rw [hm]
            rfl
          simp [List.countP_cons, hfalse, hcnt]
        · intro j hj hjf
          have hjf' : j < ((List.range a).foldl (markerScanStep t) ([], [], 0)).2.2 :=
            hjf
          exact hnomatch j (by omega) hjf'

/-- C10 amended: the offset loop excludes exactly the positions where the
literal `'[PAGE_BREAK_'` begins, so the number of recorded clean positions is
`len(text)` minus the number of such positions.  When every occurrence of the
literal opens a complete marker `[PAGE_BREAK_<digits>]` — the situation the
claim describes — and at least one marker is present, the largest recorded
key is `len(text) - m - 1` for `m` the marker count, and it exceeds the last
valid position of the marker-stripped text, because each stripped marker is
at least 14 characters long but only one position per marker is excluded. -/
theorem C10_amended (t : List Char)
    (H : ∀ i < t.length,
      markerLit.isPrefixOf (t.drop i) = (matchMarkerAt t i).isSome)
    (hm : 1 ≤ (findMarkers t).length) :
    (origPositions t).length = t.length - (findMarkers t).length ∧
    (cleanText t).length < (origPositions t).length := by
  obtain ⟨hfree, hsize, hcnt, -⟩ := markerScan_inv t t.length (le_refl _)
  have hms : findMarkers t =
      ((List.range t.length).foldl (markerScanStep t) ([], [], 0)).1 := rfl
  have hct : cleanText t =
      ((List.range t.length).foldl (markerScanStep t) ([], [], 0)).2.1 := rfl
  have hsize' : (cleanText t).length + 14 * (findMarkers t).length ≤ t.length := by
    rw [hct, hms]
    omega
  have hcnt' : (findMarkers t).length =
      (List.range t.length).countP (fun i => (matchMarkerAt t i).isSome) := by
    rw [hms]
    exact hcnt
  have hpc : (List.range t.length).countP
      (fun i => markerLit.isPrefixOf (t.drop i)) =
      (List.range t.length).countP (fun i => (matchMarkerAt t i).isSome) := by
    apply List.countP_congr
    intro i hi
    rw [H i (List.mem_range.mp hi)]
  have h1 : (origPositions t).length = (List.range t.length).countP
      (fun i => !(markerLit.isPrefixOf (t.drop i))) := by
    rw [origPositions, ← List.countP_eq_length_filter]
  have h2 := List.length_eq_countP_add_countP
    (fun i => markerLit.isPrefixOf (t.drop i)) (List.range t.length)
  have h3 : (List.range t.length).countP
      (fun a => decide ¬(markerLit.isPrefixOf (t.drop a) = true)) =
      (List.range t.length).countP (fun i => !(markerLit.isPrefixOf (t.drop i))) := by
    apply List.countP_congr
    intro x _
    cases hpx : markerLit.isPrefixOf (t.drop x) <;> simp [hpx]
  rw [List.length_range] at h2
  constructor
  · omega
  · omega

/-- C10 witness: the amended statement applied to a text with one complete
marker: 16 recorded positions out of 17 characters, against a 3-character
clean text. -/
theorem C10_witness :
    (origPositions ("[PAGE_BREAK_1]abc".toList)).length =
      "[PAGE_BREAK_1]abc".toList.length -
        (findMarkers ("[PAGE_BREAK_1]abc".toList)).length ∧
    (cleanText ("[PAGE_BREAK_1]abc".toList)).length <
      (origPositions ("[PAGE_BREAK_1]abc".toList)).length :=
  C10_amended ("[PAGE_BREAK_1]abc".toList) (by decide) (by decide)
